import Mathlib

/-
Verification of the `soupa` rewriter (src/lib.rs).

The source is a single declarative rewriting system (`soupa`, lib.rs lines
114-548) whose rules drive an explicit stack machine over token trees.  The
embedding below models:

  * `Tok` / `Paren`   - token trees: atoms and bracketed groups ({} () []);
  * `InitEntry`       - one generated statement `let <name> = { <contents> };`
                        (lib.rs line 162);
  * `Frame`           - one stack entry `{ @paren, @body, @rest }`;
  * `MState`          - a full internal state
                        `@temps, @stack, @init, @body` (lib.rs lines 115-119);
  * `step`            - one rule application, arms in source order except that
                        mutually exclusive arms may be listed adjacently;
  * `runFuel`/`soupa` - iterated rule application from the entry state
                        (lib.rs lines 519-547); fuel `2*size+2` is proved
                        sufficient below (`soupa_eq_proc`).

The entry rule of the source (lines 519-547) is a catch-all: any invocation
not matching an internal-state shape is (re)initialised with the literal
name pool `soupaTemps` and a single bottom frame of kind `None`.  `soupa`
applies that entry rule once; internal states that match no rule (possible
only for stack shapes unreachable from the entry state) are modelled as
`StepRes.stuck`, i.e. `none`.  One host-level artifact is outside the
model: because internal states are themselves token sequences, a user
invocation whose tokens spell out the internal `@temps .. @stack: ..`
syntax would be captured by an internal rule before the entry rule; the
embedding, like the spec, reads the input as an ordinary token sequence
processed from a fresh entry state.

`proc` is a compositional restatement of the same scan, used as the bridge
for induction; `soupa_eq_proc` proves the machine equal to it on every input.
-/

inductive Paren where
  | brace
  | paren
  | bracket

inductive Tok where
  | atom (s : String)
  | group (p : Paren) (ts : List Tok)

/-- One generated initialization statement `let <name> = { <contents> };`
(lib.rs line 162). -/
structure InitEntry where
  name : String
  contents : List Tok

/-- One work-stack entry `{ @paren: .., @body: .., @rest: .. }` of the source's
internal state; `paren = none` models the literal `None` marker of the bottom
frame (lib.rs line 539). -/
structure Frame where
  paren : Option Paren
  body : List Tok
  rest : List Tok

/-- A full internal state `@temps { .. }, @stack: { .. }, @init: { .. },
@body: { .. }` (lib.rs lines 115-119). -/
structure MState where
  temps : List String
  stack : List Frame
  init : List InitEntry
  body : List Tok

inductive StepRes where
  | next (s : MState)
  | done (init : List InitEntry) (body : List Tok)
  | stuck

/-- One rule application of the rewriting system (lib.rs lines 115-517).
Arm order follows the source; the group arm (source lines 167-274, three
rules, one per bracket kind) may be listed after the `super` arm because the
two discriminate on different head constructors.  The final arm is the
internal-state shape matched by no source rule other than the catch-all
entry rule. -/
def step : MState → StepRes
  | ⟨_, [], init, body⟩ => .done init body
  | ⟨n :: temps, ⟨p, fb, .atom "super" :: .group .brace c :: r⟩ :: stk, init, body⟩ =>
      .next ⟨temps, ⟨p, fb ++ [.atom n], r⟩ :: stk, init ++ [⟨n, c⟩], body⟩
  | ⟨temps, ⟨p, fb, .group q c :: r⟩ :: stk, init, body⟩ =>
      .next ⟨temps, ⟨some q, [], c⟩ :: ⟨p, fb, r⟩ :: stk, init, body⟩
  | ⟨temps, ⟨p, fb, t :: r⟩ :: stk, init, body⟩ =>
      .next ⟨temps, ⟨p, fb ++ [t], r⟩ :: stk, init, body⟩
  | ⟨temps, ⟨some q, fb, []⟩ :: f2 :: stk, init, body⟩ =>
      .next ⟨temps, ⟨f2.paren, f2.body ++ [.group q fb], f2.rest⟩ :: stk, init, body⟩
  | ⟨temps, [⟨some q, fb, []⟩], init, body⟩ =>
      .next ⟨temps, [], init, body ++ [.group q fb]⟩
  | ⟨temps, [⟨none, fb, []⟩], init, body⟩ =>
      .next ⟨temps, [], init, body ++ fb⟩
  | ⟨_, ⟨none, _, []⟩ :: _ :: _, _, _⟩ => .stuck

/-- Iterated rule application, with explicit fuel so that the function is
structurally recursive and computable by reduction. -/
def runFuel : Nat → MState → Option (List InitEntry × List Tok)
  | 0, _ => none
  | fuel + 1, s =>
      match step s with
      | .next s2 => runFuel fuel s2
      | .done init body => some (init, body)
      | .stuck => none

mutual

/-- Number of leaves and group nodes of one token tree. -/
def Tok.size : Tok → Nat
  | .atom _ => 1
  | .group _ ts => 1 + Tok.sizeList ts

/-- Number of leaves and group nodes of a token sequence. -/
def Tok.sizeList : List Tok → Nat
  | [] => 0
  | t :: ts => Tok.size t + Tok.sizeList ts

end

theorem Tok.size_pos : ∀ t : Tok, 0 < Tok.size t := by
  intro t
  cases t <;> simp [Tok.size]

/-- The literal fresh-name pool of the entry rule (lib.rs lines 526-535),
transcribed in source order. -/
def soupaTemps : List String := [
  "__soupa_temp__a", "__soupa_temp__b", "__soupa_temp__c", "__soupa_temp__d", "__soupa_temp__e", "__soupa_temp__f",
  "__soupa_temp__g", "__soupa_temp__h", "__soupa_temp__i", "__soupa_temp__j", "__soupa_temp__k", "__soupa_temp__l",
  "__soupa_temp__m", "__soupa_temp__n", "__soupa_temp__o", "__soupa_temp__p", "__soupa_temp__q", "__soupa_temp__r",
  "__soupa_temp__s", "__soupa_temp__t", "__soupa_temp__u", "__soupa_temp__v", "__soupa_temp__w", "__soupa_temp__x",
  "__soupa_temp__y", "__soupa_temp__z", "__soupa_temp__aa", "__soupa_temp__ab", "__soupa_temp__ac", "__soupa_temp__ad",
  "__soupa_temp__ae", "__soupa_temp__af", "__soupa_temp__ag", "__soupa_temp__ah", "__soupa_temp__ai", "__soupa_temp__aj",
  "__soupa_temp__ak", "__soupa_temp__al", "__soupa_temp__am", "__soupa_temp__an", "__soupa_temp__ao", "__soupa_temp__ap",
  "__soupa_temp__aq", "__soupa_temp__ar", "__soupa_temp__as", "__soupa_temp__at", "__soupa_temp__au", "__soupa_temp__av",
  "__soupa_temp__aw", "__soupa_temp__ax", "__soupa_temp__ay", "__soupa_temp__az", "__soupa_temp__ba", "__soupa_temp__bb",
  "__soupa_temp__bc", "__soupa_temp__bd", "__soupa_temp__be", "__soupa_temp__bf", "__soupa_temp__bg", "__soupa_temp__bh",
  "__soupa_temp__bi", "__soupa_temp__bj", "__soupa_temp__bk", "__soupa_temp__bl", "__soupa_temp__bm", "__soupa_temp__bn",
  "__soupa_temp__bo", "__soupa_temp__bp", "__soupa_temp__bq", "__soupa_temp__br", "__soupa_temp__bs", "__soupa_temp__bt",
  "__soupa_temp__bu", "__soupa_temp__bv", "__soupa_temp__bw", "__soupa_temp__bx", "__soupa_temp__by", "__soupa_temp__bz",
  "__soupa_temp__ca", "__soupa_temp__cb", "__soupa_temp__cc", "__soupa_temp__cd", "__soupa_temp__ce", "__soupa_temp__cf",
  "__soupa_temp__cg", "__soupa_temp__ch", "__soupa_temp__ci", "__soupa_temp__cj", "__soupa_temp__ck", "__soupa_temp__cl",
  "__soupa_temp__cm", "__soupa_temp__cn", "__soupa_temp__co", "__soupa_temp__cp", "__soupa_temp__cq", "__soupa_temp__cr",
  "__soupa_temp__cs", "__soupa_temp__ct", "__soupa_temp__cu", "__soupa_temp__cv", "__soupa_temp__cw", "__soupa_temp__cx",
  "__soupa_temp__cy", "__soupa_temp__cz", "__soupa_temp__da", "__soupa_temp__db", "__soupa_temp__dc", "__soupa_temp__dd",
  "__soupa_temp__de", "__soupa_temp__df", "__soupa_temp__dg", "__soupa_temp__dh", "__soupa_temp__di", "__soupa_temp__dj",
  "__soupa_temp__dk", "__soupa_temp__dl", "__soupa_temp__dm", "__soupa_temp__dn", "__soupa_temp__do", "__soupa_temp__dp",
  "__soupa_temp__dq", "__soupa_temp__dr", "__soupa_temp__ds", "__soupa_temp__dt", "__soupa_temp__du", "__soupa_temp__dv",
  "__soupa_temp__dw", "__soupa_temp__dx", "__soupa_temp__dy", "__soupa_temp__dz", "__soupa_temp__ea", "__soupa_temp__eb",
  "__soupa_temp__ec", "__soupa_temp__ed", "__soupa_temp__ee", "__soupa_temp__ef", "__soupa_temp__eg", "__soupa_temp__eh",
  "__soupa_temp__ei", "__soupa_temp__ej", "__soupa_temp__ek", "__soupa_temp__el", "__soupa_temp__em", "__soupa_temp__en",
  "__soupa_temp__eo", "__soupa_temp__ep", "__soupa_temp__eq", "__soupa_temp__er", "__soupa_temp__es", "__soupa_temp__et",
  "__soupa_temp__eu", "__soupa_temp__ev", "__soupa_temp__ew", "__soupa_temp__ex", "__soupa_temp__ey", "__soupa_temp__ez",
  "__soupa_temp__fa", "__soupa_temp__fb", "__soupa_temp__fc", "__soupa_temp__fd", "__soupa_temp__fe", "__soupa_temp__ff",
  "__soupa_temp__fg", "__soupa_temp__fh", "__soupa_temp__fi", "__soupa_temp__fj", "__soupa_temp__fk", "__soupa_temp__fl",
  "__soupa_temp__fm", "__soupa_temp__fn", "__soupa_temp__fo", "__soupa_temp__fp", "__soupa_temp__fq", "__soupa_temp__fr",
  "__soupa_temp__fs", "__soupa_temp__ft", "__soupa_temp__fu", "__soupa_temp__fv", "__soupa_temp__fw", "__soupa_temp__fx",
  "__soupa_temp__fy", "__soupa_temp__fz", "__soupa_temp__ga", "__soupa_temp__gb", "__soupa_temp__gc", "__soupa_temp__gd",
  "__soupa_temp__ge", "__soupa_temp__gf", "__soupa_temp__gg", "__soupa_temp__gh", "__soupa_temp__gi", "__soupa_temp__gj",
  "__soupa_temp__gk", "__soupa_temp__gl", "__soupa_temp__gm", "__soupa_temp__gn", "__soupa_temp__go", "__soupa_temp__gp",
  "__soupa_temp__gq", "__soupa_temp__gr", "__soupa_temp__gs", "__soupa_temp__gt", "__soupa_temp__gu", "__soupa_temp__gv",
  "__soupa_temp__gw", "__soupa_temp__gx", "__soupa_temp__gy", "__soupa_temp__gz", "__soupa_temp__ha", "__soupa_temp__hb",
  "__soupa_temp__hc", "__soupa_temp__hd", "__soupa_temp__he", "__soupa_temp__hf", "__soupa_temp__hg", "__soupa_temp__hh",
  "__soupa_temp__hi", "__soupa_temp__hj", "__soupa_temp__hk", "__soupa_temp__hl", "__soupa_temp__hm", "__soupa_temp__hn",
  "__soupa_temp__ho", "__soupa_temp__hp", "__soupa_temp__hq", "__soupa_temp__hr", "__soupa_temp__hs", "__soupa_temp__ht",
  "__soupa_temp__hu", "__soupa_temp__hv", "__soupa_temp__hw", "__soupa_temp__hx", "__soupa_temp__hy", "__soupa_temp__hz",
  "__soupa_temp__ia", "__soupa_temp__ib", "__soupa_temp__ic", "__soupa_temp__id", "__soupa_temp__ie", "__soupa_temp__if",
  "__soupa_temp__ig", "__soupa_temp__ih", "__soupa_temp__ii", "__soupa_temp__ij", "__soupa_temp__ik", "__soupa_temp__il",
  "__soupa_temp__im", "__soupa_temp__in", "__soupa_temp__io", "__soupa_temp__ip", "__soupa_temp__iq", "__soupa_temp__ir",
  "__soupa_temp__is", "__soupa_temp__it", "__soupa_temp__iu", "__soupa_temp__iv", "__soupa_temp__iw", "__soupa_temp__ix",
  "__soupa_temp__iy", "__soupa_temp__iz"]

/-- The state built by the entry rule (lib.rs lines 519-547): the full pool,
one bottom frame of kind `None` holding the whole input, empty init, empty
body. -/
def initState (input : List Tok) : MState :=
  ⟨soupaTemps, [⟨none, [], input⟩], [], []⟩

/-- The full rewrite: entry rule followed by rule application until the stack
is empty.  The result is the pair (Init List, Output Body); fuel
`2 * size + 2` is proved sufficient (`soupa_eq_proc`). -/
def soupa (input : List Tok) : Option (List InitEntry × List Tok) :=
  runFuel (2 * Tok.sizeList input + 2) (initState input)

/-- Token form of one init statement, `let <name> = { <contents> };`
(lib.rs line 162). -/
def renderInit (e : InitEntry) : List Tok :=
  [.atom "let", .atom e.name, .atom "=", .group .brace e.contents, .atom ";"]

/-- The expression the rewrite finally expands to: a single brace-delimited
block holding the init statements followed by the output body (lib.rs lines
120-127). -/
def soupaExpand (input : List Tok) : Option Tok :=
  (soupa input).map fun out => .group .brace ((out.1.map renderInit).flatten ++ out.2)

mutual

/-- Whether a token tree textually contains a marked expression
(`super` immediately followed by a `{}` group) at any depth. -/
def Tok.hasMarked : Tok → Bool
  | .atom _ => false
  | .group _ ts => hasMarkedList ts

/-- Whether a token sequence textually contains a marked expression at any
depth, including inside the contents of other marked expressions. -/
def hasMarkedList : List Tok → Bool
  | [] => false
  | .atom "super" :: .group .brace _ :: _ => true
  | t :: r => Tok.hasMarked t || hasMarkedList r

end

mutual

/-- Number of marked expressions a full scan of one token tree discovers;
the contents of a marked expression are opaque (taken verbatim, spec section
4.1), so markers nested inside them are not counted. -/
def Tok.countMarked : Tok → Nat
  | .atom _ => 0
  | .group _ ts => countMarkedList ts

/-- Number of marked expressions a full scan of a token sequence discovers,
contents of discovered markers being opaque. -/
def countMarkedList : List Tok → Nat
  | [] => 0
  | .atom "super" :: .group .brace _ :: r => 1 + countMarkedList r
  | t :: r => Tok.countMarked t + countMarkedList r

end

mutual

/-- Number of occurrences of the atom `nm` anywhere in one token tree. -/
def Tok.countName (nm : String) : Tok → Nat
  | .atom a => if a = nm then 1 else 0
  | .group _ ts => countNameList nm ts

/-- Number of occurrences of the atom `nm` anywhere in a token sequence. -/
def countNameList (nm : String) : List Tok → Nat
  | [] => 0
  | t :: r => Tok.countName nm t + countNameList nm r

end

mutual

/-- Contents of the marked expressions of one token tree in pre-order
depth-first left-to-right traversal order, marked contents being opaque.
This is the spec's discovery order (spec sections 3 and 4.1). -/
def Tok.preorderMarked : Tok → List (List Tok)
  | .atom _ => []
  | .group _ ts => preorderMarkedList ts

/-- Contents of the marked expressions of a token sequence in pre-order
depth-first left-to-right traversal order. -/
def preorderMarkedList : List Tok → List (List Tok)
  | [] => []
  | .atom "super" :: .group .brace c :: r => c :: preorderMarkedList r
  | t :: r => Tok.preorderMarked t ++ preorderMarkedList r

end

/-- Whether a token sequence starts with a `{}` group. -/
def startsWithBraceGroup : List Tok → Bool
  | .group .brace _ :: _ => true
  | _ => false

/-- Compositional restatement of the scan performed by the stack machine:
given the remaining name pool and a token sequence, return the leftover
pool, the init entries generated, and the rewritten sequence.  Proved equal
to the machine by `soupa_eq_proc`. -/
def proc : List String → List Tok → List String × List InitEntry × List Tok
  | temps, [] => (temps, [], [])
  | temps, .group q c :: r =>
      let p1 := proc temps c
      let p2 := proc p1.1 r
      (p2.1, p1.2.1 ++ p2.2.1, .group q p1.2.2 :: p2.2.2)
  | n :: temps, .atom "super" :: .group .brace c :: r =>
      let p1 := proc temps r
      (p1.1, ⟨n, c⟩ :: p1.2.1, .atom n :: p1.2.2)
  | temps, t :: r =>
      let p1 := proc temps r
      (p1.1, p1.2.1, t :: p1.2.2)
termination_by _ ts => Tok.sizeList ts
decreasing_by
  all_goals simp [Tok.sizeList, Tok.size]
  all_goals try omega
  all_goals (have h := Tok.size_pos t; omega)

theorem step_done (temps : List String) (init : List InitEntry) (body : List Tok) :
    step ⟨temps, [], init, body⟩ = .done init body := by
  cases temps <;> rfl

theorem step_super (n : String) (temps : List String) (p : Option Paren) (fb : List Tok)
    (c r : List Tok) (stk : List Frame) (init : List InitEntry) (body : List Tok) :
    step ⟨n :: temps, ⟨p, fb, .atom "super" :: .group .brace c :: r⟩ :: stk, init, body⟩ =
      .next ⟨temps, ⟨p, fb ++ [.atom n], r⟩ :: stk, init ++ [⟨n, c⟩], body⟩ := by
  cases p <;> rfl

theorem step_push (temps : List String) (p : Option Paren) (fb : List Tok) (q : Paren)
    (c r : List Tok) (stk : List Frame) (init : List InitEntry) (body : List Tok) :
    step ⟨temps, ⟨p, fb, .group q c :: r⟩ :: stk, init, body⟩ =
      .next ⟨temps, ⟨some q, [], c⟩ :: ⟨p, fb, r⟩ :: stk, init, body⟩ := by
  cases temps <;> cases p <;> rfl

theorem step_misc_ne (temps : List String) (p : Option Paren) (fb : List Tok) (a : String)
    (h : a ≠ "super") (r : List Tok) (stk : List Frame) (init : List InitEntry) (body : List Tok) :
    step ⟨temps, ⟨p, fb, .atom a :: r⟩ :: stk, init, body⟩ =
      .next ⟨temps, ⟨p, fb ++ [.atom a], r⟩ :: stk, init, body⟩ := by
  rw [step.eq_def]
  split
  all_goals first
    | rfl
    | (rename_i heq; simp_all)
    | simp_all

theorem step_misc_super_no_temps (p : Option Paren) (fb : List Tok)
    (r : List Tok) (stk : List Frame) (init : List InitEntry) (body : List Tok) :
    step ⟨[], ⟨p, fb, .atom "super" :: r⟩ :: stk, init, body⟩ =
      .next ⟨[], ⟨p, fb ++ [.atom "super"], r⟩ :: stk, init, body⟩ := by
  rw [step.eq_def]
  split
  all_goals first
    | rfl
    | (rename_i heq; simp_all)
    | simp_all

theorem step_misc_super_no_brace (temps : List String) (p : Option Paren) (fb : List Tok)
    (r : List Tok) (stk : List Frame) (init : List InitEntry) (body : List Tok)
    (h : ∀ c r2, r ≠ Tok.group .brace c :: r2) :
    step ⟨temps, ⟨p, fb, .atom "super" :: r⟩ :: stk, init, body⟩ =
      .next ⟨temps, ⟨p, fb ++ [.atom "super"], r⟩ :: stk, init, body⟩ := by
  rw [step.eq_def]
  split
  all_goals first
    | rfl
    | (rename_i heq; simp_all)
    | simp_all
  all_goals try (exact absurd rfl (h _ _))

theorem step_merge (temps : List String) (q : Paren) (fb : List Tok) (f2 : Frame)
    (stk : List Frame) (init : List InitEntry) (body : List Tok) :
    step ⟨temps, ⟨some q, fb, []⟩ :: f2 :: stk, init, body⟩ =
      .next ⟨temps, ⟨f2.paren, f2.body ++ [.group q fb], f2.rest⟩ :: stk, init, body⟩ := by
  cases temps <;> cases f2 <;> rfl

theorem step_bottom (temps : List String) (q : Paren) (fb : List Tok)
    (init : List InitEntry) (body : List Tok) :
    step ⟨temps, [⟨some q, fb, []⟩], init, body⟩ =
      .next ⟨temps, [], init, body ++ [.group q fb]⟩ := by
  cases temps <;> rfl

theorem step_bottom_none (temps : List String) (fb : List Tok)
    (init : List InitEntry) (body : List Tok) :
    step ⟨temps, [⟨none, fb, []⟩], init, body⟩ =
      .next ⟨temps, [], init, body ++ fb⟩ := by
  cases temps <;> rfl

theorem runFuel_mono {n m : Nat} {s : MState} {r : List InitEntry × List Tok}
    (hle : n ≤ m) (h : runFuel n s = some r) : runFuel m s = some r := by
  induction n generalizing m s with
  | zero => simp [runFuel] at h
  | succ k ih =>
      obtain ⟨m2, rfl⟩ : ∃ m2, m = m2 + 1 := ⟨m - 1, by omega⟩
      cases hs : step s with
      | next s2 =>
          simp only [runFuel, hs] at h ⊢
          exact ih (by omega) h
      | done i b =>
          simp only [runFuel, hs] at h ⊢
          exact h
      | stuck =>
          simp only [runFuel, hs] at h
          exact absurd h (by simp)

theorem proc_nil (temps : List String) : proc temps [] = (temps, [], []) := by
  simp [proc]

theorem proc_group (temps : List String) (q : Paren) (c r : List Tok) :
    proc temps (.group q c :: r) =
      ((proc (proc temps c).1 r).1,
       (proc temps c).2.1 ++ (proc (proc temps c).1 r).2.1,
       .group q (proc temps c).2.2 :: (proc (proc temps c).1 r).2.2) := by
  simp [proc]

theorem proc_super (n : String) (temps : List String) (c r : List Tok) :
    proc (n :: temps) (.atom "super" :: .group .brace c :: r) =
      ((proc temps r).1, ⟨n, c⟩ :: (proc temps r).2.1, .atom n :: (proc temps r).2.2) := by
  simp [proc]

theorem proc_atom_ne (temps : List String) (a : String) (h : a ≠ "super") (r : List Tok) :
    proc temps (.atom a :: r) =
      ((proc temps r).1, (proc temps r).2.1, .atom a :: (proc temps r).2.2) := by
  rw [proc.eq_def]
  split
  all_goals first
    | rfl
    | (rename_i heq; simp_all)
    | simp_all

theorem proc_super_no_temps (r : List Tok) :
    proc [] (.atom "super" :: r) =
      ((proc [] r).1, (proc [] r).2.1, .atom "super" :: (proc [] r).2.2) := by
  rw [proc.eq_def]

theorem proc_super_no_brace (temps : List String) (r : List Tok)
    (h : ∀ c r2, r ≠ Tok.group .brace c :: r2) :
    proc temps (.atom "super" :: r) =
      ((proc temps r).1, (proc temps r).2.1, .atom "super" :: (proc temps r).2.2) := by
  rw [proc.eq_def]
  split
  all_goals first
    | rfl
    | (rename_i heq; simp_all)
    | simp_all
  all_goals try (exact absurd rfl (h _ _))

theorem runFuel_step {s s2 : MState} (hs : step s = .next s2) {n : Nat}
    {res : List InitEntry × List Tok} (h : runFuel n s2 = some res) :
    ∀ m, n + 1 ≤ m → runFuel m s = some res := by
  intro m hm
  obtain ⟨m2, rfl⟩ : ∃ m2, m = m2 + 1 := ⟨m - 1, by omega⟩
  simp only [runFuel, hs]
  exact runFuel_mono (by omega) h

theorem procSim (temps : List String) (rest : List Tok) :
    ∀ (p : Option Paren) (fb : List Tok) (stk : List Frame) (init : List InitEntry)
      (out : List Tok) (fuel : Nat) (res : List InitEntry × List Tok),
    runFuel fuel ⟨(proc temps rest).1, ⟨p, fb ++ (proc temps rest).2.2, []⟩ :: stk,
                  init ++ (proc temps rest).2.1, out⟩ = some res →
    runFuel (2 * Tok.sizeList rest + fuel) ⟨temps, ⟨p, fb, rest⟩ :: stk, init, out⟩ = some res := by
  induction temps, rest using proc.induct with
  | case1 temps =>
      intro p fb stk init out fuel res h
      simpa [proc_nil, Tok.sizeList] using h
  | case2 temps q c r p1 ihc ihr =>
      intro p fb stk init out fuel res h
      rw [proc_group] at h
      have hr : runFuel (2 * Tok.sizeList r + fuel)
          ⟨(proc temps c).1, ⟨p, fb ++ [.group q (proc temps c).2.2], r⟩ :: stk,
            init ++ (proc temps c).2.1, out⟩ = some res := by
        apply ihr
        simpa [List.append_assoc] using h
      have hmerge : runFuel (2 * Tok.sizeList r + fuel + 1)
          ⟨(proc temps c).1, ⟨some q, [] ++ (proc temps c).2.2, []⟩ :: ⟨p, fb, r⟩ :: stk,
            init ++ (proc temps c).2.1, out⟩ = some res := by
        exact runFuel_step (step_merge _ _ _ _ _ _ _) hr _ (by omega)
      have hc : runFuel (2 * Tok.sizeList c + (2 * Tok.sizeList r + fuel + 1))
          ⟨temps, ⟨some q, [], c⟩ :: ⟨p, fb, r⟩ :: stk, init, out⟩ = some res :=
        ihc _ _ _ _ _ _ _ hmerge
      exact runFuel_step (step_push _ _ _ _ _ _ _ _ _) hc _
        (by simp [Tok.sizeList, Tok.size]; omega)
  | case3 n temps c r ih =>
      intro p fb stk init out fuel res h
      rw [proc_super] at h
      have hr : runFuel (2 * Tok.sizeList r + fuel)
          ⟨temps, ⟨p, fb ++ [.atom n], r⟩ :: stk, init ++ [⟨n, c⟩], out⟩ = some res := by
        apply ih
        simpa [List.append_assoc] using h
      exact runFuel_step (step_super _ _ _ _ _ _ _ _ _) hr _
        (by simp [Tok.sizeList, Tok.size]; omega)
  | case4 temps t r h1 h2 ih =>
      intro p fb stk init out fuel res h
      obtain ⟨a, rfl⟩ : ∃ a, t = Tok.atom a := by
        cases t with
        | atom a => exact ⟨a, rfl⟩
        | group q c => exact absurd rfl (fun hg => h1 q c hg)
      by_cases ha : a = "super"
      · subst ha
        cases htemps : temps with
        | nil =>
            subst htemps
            rw [proc_super_no_temps] at h
            have hr : runFuel (2 * Tok.sizeList r + fuel)
                ⟨[], ⟨p, fb ++ [.atom "super"], r⟩ :: stk, init, out⟩ = some res := by
              apply ih
              simpa [List.append_assoc] using h
            exact runFuel_step (step_misc_super_no_temps _ _ _ _ _ _) hr _
              (by simp [Tok.sizeList, Tok.size]; omega)
        | cons n temps2 =>
            subst htemps
            have hnb : ∀ c r2, r ≠ Tok.group .brace c :: r2 := by
              intro c r2 hr2
              exact h2 n temps2 c r2 rfl rfl hr2
            rw [proc_super_no_brace _ _ hnb] at h
            have hr : runFuel (2 * Tok.sizeList r + fuel)
                ⟨n :: temps2, ⟨p, fb ++ [.atom "super"], r⟩ :: stk, init, out⟩ = some res := by
              apply ih
              simpa [List.append_assoc] using h
            exact runFuel_step (step_misc_super_no_brace _ _ _ _ _ _ _ hnb) hr _
              (by simp [Tok.sizeList, Tok.size]; omega)
      · rw [proc_atom_ne _ _ ha] at h
        have hr : runFuel (2 * Tok.sizeList r + fuel)
            ⟨temps, ⟨p, fb ++ [.atom a], r⟩ :: stk, init, out⟩ = some res := by
          apply ih
          simpa [List.append_assoc] using h
        exact runFuel_step (step_misc_ne _ _ _ _ ha _ _ _ _) hr _
          (by simp [Tok.sizeList, Tok.size]; omega)

theorem runFuel_done {s : MState} {init : List InitEntry} {body : List Tok}
    (hs : step s = .done init body) :
    ∀ m, 1 ≤ m → runFuel m s = some (init, body) := by
  intro m hm
  obtain ⟨m2, rfl⟩ : ∃ m2, m = m2 + 1 := ⟨m - 1, by omega⟩
  simp only [runFuel, hs]

/-- The machine agrees with the compositional scan `proc` on every input, and
the fuel supplied by `soupa` always suffices. -/
theorem soupa_eq_proc (input : List Tok) :
    soupa input = some ((proc soupaTemps input).2.1, (proc soupaTemps input).2.2) := by
  have hmid : runFuel 1
      ⟨(proc soupaTemps input).1, [], (proc soupaTemps input).2.1, (proc soupaTemps input).2.2⟩
      = some ((proc soupaTemps input).2.1, (proc soupaTemps input).2.2) :=
    runFuel_done (step_done _ _ _) 1 le_rfl
  have hend : runFuel 2
      ⟨(proc soupaTemps input).1, ⟨none, (proc soupaTemps input).2.2, []⟩ :: [],
        (proc soupaTemps input).2.1, []⟩
      = some ((proc soupaTemps input).2.1, (proc soupaTemps input).2.2) := by
    have hs := step_bottom_none (proc soupaTemps input).1 (proc soupaTemps input).2.2
        (proc soupaTemps input).2.1 []
    exact runFuel_step hs (by simpa using hmid) 2 (by omega)
  have hrun := procSim soupaTemps input none [] [] [] [] 2
      ((proc soupaTemps input).2.1, (proc soupaTemps input).2.2) (by simpa using hend)
  simpa [soupa, initState] using hrun

theorem hasMarkedList_group (q : Paren) (c r : List Tok) :
    hasMarkedList (.group q c :: r) = (hasMarkedList c || hasMarkedList r) := by
  simp [hasMarkedList, Tok.hasMarked]

theorem hasMarkedList_super (c r : List Tok) :
    hasMarkedList (.atom "super" :: .group .brace c :: r) = true := by
  simp [hasMarkedList]

theorem hasMarkedList_atom_ne (a : String) (h : a ≠ "super") (r : List Tok) :
    hasMarkedList (.atom a :: r) = hasMarkedList r := by
  rw [hasMarkedList.eq_def]
  split
  · simp_all
  · simp_all
  · rename_i heq
    injection heq with he1 he2
    subst he2
    cases he1
    simp [Tok.hasMarked]

theorem hasMarkedList_super_no_brace (r : List Tok)
    (h : ∀ c r2, r ≠ Tok.group .brace c :: r2) :
    hasMarkedList (.atom "super" :: r) = hasMarkedList r := by
  rw [hasMarkedList.eq_def]
  split
  · simp_all
  · rename_i heq
    injection heq with he1 he2
    exact absurd he2 (h _ _)
  · rename_i heq
    injection heq with he1 he2
    subst he2
    cases he1
    simp [Tok.hasMarked]

theorem countMarkedList_group (q : Paren) (c r : List Tok) :
    countMarkedList (.group q c :: r) = countMarkedList c + countMarkedList r := by
  simp [countMarkedList, Tok.countMarked]

theorem countMarkedList_super (c r : List Tok) :
    countMarkedList (.atom "super" :: .group .brace c :: r) = 1 + countMarkedList r := by
  simp [countMarkedList]

theorem countMarkedList_atom_ne (a : String) (h : a ≠ "super") (r : List Tok) :
    countMarkedList (.atom a :: r) = countMarkedList r := by
  rw [countMarkedList.eq_def]
  split
  · simp_all
  · simp_all
  · rename_i heq
    injection heq with he1 he2
    subst he2
    cases he1
    simp [Tok.countMarked]

theorem countMarkedList_super_no_brace (r : List Tok)
    (h : ∀ c r2, r ≠ Tok.group .brace c :: r2) :
    countMarkedList (.atom "super" :: r) = countMarkedList r := by
  rw [countMarkedList.eq_def]
  split
  · simp_all
  · rename_i heq
    injection heq with he1 he2
    exact absurd he2 (h _ _)
  · rename_i heq
    injection heq with he1 he2
    subst he2
    cases he1
    simp [Tok.countMarked]

theorem preorderMarkedList_group (q : Paren) (c r : List Tok) :
    preorderMarkedList (.group q c :: r) = preorderMarkedList c ++ preorderMarkedList r := by
  simp [preorderMarkedList, Tok.preorderMarked]

theorem preorderMarkedList_super (c r : List Tok) :
    preorderMarkedList (.atom "super" :: .group .brace c :: r) = c :: preorderMarkedList r := by
  simp [preorderMarkedList]

theorem preorderMarkedList_atom_ne (a : String) (h : a ≠ "super") (r : List Tok) :
    preorderMarkedList (.atom a :: r) = preorderMarkedList r := by
  rw [preorderMarkedList.eq_def]
  split
  · simp_all
  · simp_all
  · rename_i heq
    injection heq with he1 he2
    subst he2
    cases he1
    simp [Tok.preorderMarked]

theorem preorderMarkedList_super_no_brace (r : List Tok)
    (h : ∀ c r2, r ≠ Tok.group .brace c :: r2) :
    preorderMarkedList (.atom "super" :: r) = preorderMarkedList r := by
  rw [preorderMarkedList.eq_def]
  split
  · simp_all
  · rename_i heq
    injection heq with he1 he2
    exact absurd he2 (h _ _)
  · rename_i heq
    injection heq with he1 he2
    subst he2
    cases he1
    simp [Tok.preorderMarked]

theorem countNameList_nil (nm : String) : countNameList nm [] = 0 := rfl

theorem countNameList_cons (nm : String) (t : Tok) (r : List Tok) :
    countNameList nm (t :: r) = Tok.countName nm t + countNameList nm r := by
  simp [countNameList]

theorem braceHead_cases (r : List Tok) :
    (∃ c r2, r = Tok.group .brace c :: r2) ∨ (∀ c r2, r ≠ Tok.group .brace c :: r2) := by
  match r with
  | [] => right; simp
  | .atom a :: r2 => right; simp
  | .group .brace c :: r2 => left; exact ⟨c, r2, rfl⟩
  | .group .paren c :: r2 => right; simp
  | .group .bracket c :: r2 => right; simp

/-- A scan of token trees containing no marked expression changes nothing:
no name is consumed, no init entry is generated, the sequence is returned
verbatim. -/
theorem proc_of_no_marked (temps : List String) (ts : List Tok)
    (h : hasMarkedList ts = false) : proc temps ts = (temps, [], ts) := by
  induction temps, ts using proc.induct with
  | case1 temps => exact proc_nil temps
  | case2 temps q c r p1 ihc ihr =>
      rw [hasMarkedList_group] at h
      obtain ⟨hc, hr⟩ := Bool.or_eq_false_iff.mp h
      rw [proc_group, ihc hc]
      rw [show p1 = proc temps c from rfl, ihc hc] at ihr
      rw [ihr hr]
      simp
  | case3 n temps c r ih =>
      rw [hasMarkedList_super] at h
      exact absurd h (by simp)
  | case4 temps t r h1 h2 ih =>
      obtain ⟨a, rfl⟩ : ∃ a, t = Tok.atom a := by
        cases t with
        | atom a => exact ⟨a, rfl⟩
        | group q c => exact absurd rfl (fun hg => h1 q c hg)
      by_cases ha : a = "super"
      · subst ha
        rcases braceHead_cases r with ⟨c2, r2, rfl⟩ | hnb
        · rw [hasMarkedList_super] at h
          exact absurd h (by simp)
        · rw [hasMarkedList_super_no_brace _ hnb] at h
          cases temps with
          | nil => rw [proc_super_no_temps, ih h]
          | cons n temps2 =>
              have hnb2 : ∀ c r2, r ≠ Tok.group .brace c :: r2 := hnb
              rw [proc_super_no_brace _ _ hnb2, ih h]
      · rw [hasMarkedList_atom_ne _ ha] at h
        rw [proc_atom_ne _ _ ha, ih h]

/-- With an exhausted name pool nothing is ever hoisted: the scan is the
identity on every token sequence. -/
theorem proc_empty_temps (ts : List Tok) : proc [] ts = ([], [], ts) := by
  have key : ∀ temps ts, temps = [] → proc temps ts = ([], ([] : List InitEntry), ts) := by
    intro temps ts
    induction temps, ts using proc.induct with
    | case1 temps => intro he; subst he; exact proc_nil []
    | case2 temps q c r p1 ihc ihr =>
        intro he; subst he
        rw [proc_group, ihc rfl]
        rw [show p1 = proc [] c from rfl, ihc rfl] at ihr
        rw [ihr rfl]
        simp
    | case3 n temps c r ih => intro he; exact absurd he (by simp)
    | case4 temps t r h1 h2 ih =>
        intro he; subst he
        obtain ⟨a, rfl⟩ : ∃ a, t = Tok.atom a := by
          cases t with
          | atom a => exact ⟨a, rfl⟩
          | group q c => exact absurd rfl (fun hg => h1 q c hg)
        by_cases ha : a = "super"
        · subst ha
          rw [proc_super_no_temps, ih rfl]
        · rw [proc_atom_ne _ _ ha, ih rfl]
  exact key [] ts rfl

/-- The leftover pool is always the original pool with exactly one name
dropped per generated init entry. -/
theorem proc_leftover (temps : List String) (ts : List Tok) :
    (proc temps ts).1 = temps.drop (proc temps ts).2.1.length := by
  induction temps, ts using proc.induct with
  | case1 temps => rw [proc_nil]; simp
  | case2 temps q c r p1 ihc ihr =>
      rw [show p1 = proc temps c from rfl] at ihr
      rw [proc_group]
      simp only [List.length_append]
      rw [ihr, ihc, List.drop_drop]
  | case3 n temps c r ih =>
      rw [proc_super]
      simp only [List.length_cons]
      rw [ih]
      simp
  | case4 temps t r h1 h2 ih =>
      obtain ⟨a, rfl⟩ : ∃ a, t = Tok.atom a := by
        cases t with
        | atom a => exact ⟨a, rfl⟩
        | group q c => exact absurd rfl (fun hg => h1 q c hg)
      by_cases ha : a = "super"
      · subst ha
        cases temps with
        | nil => rw [proc_super_no_temps]; simpa using ih
        | cons n temps2 =>
            have hnb : ∀ c r2, r ≠ Tok.group .brace c :: r2 := by
              intro c r2 hr2
              exact h2 n temps2 c r2 rfl rfl hr2
            rw [proc_super_no_brace _ _ hnb]
            simpa using ih
      · rw [proc_atom_ne _ _ ha]
        simpa using ih

/-- Generated names are exactly an initial segment of the pool, in pool
order: consumption is in fixed order, without repetition, starting from the
first element. -/
theorem proc_names (temps : List String) (ts : List Tok) :
    (proc temps ts).2.1.map InitEntry.name = temps.take (proc temps ts).2.1.length := by
  induction temps, ts using proc.induct with
  | case1 temps => rw [proc_nil]; simp
  | case2 temps q c r p1 ihc ihr =>
      rw [show p1 = proc temps c from rfl] at ihr
      rw [proc_group]
      simp only [List.length_append, List.map_append]
      rw [ihr, ihc, proc_leftover temps c, List.take_add]
  | case3 n temps c r ih =>
      rw [proc_super]
      simp only [List.length_cons, List.map_cons]
      rw [ih]
      simp [List.take_succ_cons]
  | case4 temps t r h1 h2 ih =>
      obtain ⟨a, rfl⟩ : ∃ a, t = Tok.atom a := by
        cases t with
        | atom a => exact ⟨a, rfl⟩
        | group q c => exact absurd rfl (fun hg => h1 q c hg)
      by_cases ha : a = "super"
      · subst ha
        cases temps with
        | nil => rw [proc_super_no_temps]; simpa using ih
        | cons n temps2 =>
            have hnb : ∀ c r2, r ≠ Tok.group .brace c :: r2 := by
              intro c r2 hr2
              exact h2 n temps2 c r2 rfl rfl hr2
            rw [proc_super_no_brace _ _ hnb]
            simpa using ih
      · rw [proc_atom_ne _ _ ha]
        simpa using ih

/-- When the pool is large enough, the scan generates exactly one init entry
per discovered marked expression. -/
theorem proc_count (temps : List String) (ts : List Tok)
    (h : countMarkedList ts ≤ temps.length) :
    (proc temps ts).2.1.length = countMarkedList ts := by
  induction temps, ts using proc.induct with
  | case1 temps => rw [proc_nil]; simp [countMarkedList]
  | case2 temps q c r p1 ihc ihr =>
      rw [show p1 = proc temps c from rfl] at ihr
      rw [countMarkedList_group] at h
      have hc : countMarkedList c ≤ temps.length := by omega
      have hlen1 : (proc temps c).2.1.length = countMarkedList c := ihc hc
      have hleft : (proc temps c).1.length = temps.length - countMarkedList c := by
        rw [proc_leftover, List.length_drop, hlen1]
      have hr : countMarkedList r ≤ (proc temps c).1.length := by omega
      rw [proc_group]
      simp only [List.length_append]
      rw [hlen1, ihr hr, countMarkedList_group]
  | case3 n temps c r ih =>
      rw [countMarkedList_super] at h
      have hr : countMarkedList r ≤ temps.length := by
        simp only [List.length_cons] at h
        omega
      rw [proc_super, countMarkedList_super]
      simp only [List.length_cons]
      rw [ih hr]
      omega
  | case4 temps t r h1 h2 ih =>
      obtain ⟨a, rfl⟩ : ∃ a, t = Tok.atom a := by
        cases t with
        | atom a => exact ⟨a, rfl⟩
        | group q c => exact absurd rfl (fun hg => h1 q c hg)
      by_cases ha : a = "super"
      · subst ha
        rcases braceHead_cases r with ⟨c2, r2, rfl⟩ | hnb
        · cases temps with
          | nil =>
              rw [countMarkedList_super] at h
              simp at h
          | cons n temps2 =>
              exact (h2 n temps2 c2 r2 rfl rfl rfl).elim
        · rw [countMarkedList_super_no_brace _ hnb] at h ⊢
          cases temps with
          | nil => rw [proc_super_no_temps]; exact ih h
          | cons n temps2 => rw [proc_super_no_brace _ _ hnb]; exact ih h
      · rw [countMarkedList_atom_ne _ ha] at h ⊢
        rw [proc_atom_ne _ _ ha]
        exact ih h

/-- When the pool is large enough, the init entries hold, in order, exactly
the contents of the marked expressions in pre-order depth-first
left-to-right traversal order. -/
theorem proc_contents (temps : List String) (ts : List Tok)
    (h : countMarkedList ts ≤ temps.length) :
    (proc temps ts).2.1.map InitEntry.contents = preorderMarkedList ts := by
  induction temps, ts using proc.induct with
  | case1 temps => rw [proc_nil]; simp [preorderMarkedList]
  | case2 temps q c r p1 ihc ihr =>
      rw [show p1 = proc temps c from rfl] at ihr
      rw [countMarkedList_group] at h
      have hc : countMarkedList c ≤ temps.length := by omega
      have hleft : (proc temps c).1.length = temps.length - countMarkedList c := by
        rw [proc_leftover, List.length_drop, proc_count temps c hc]
      have hr : countMarkedList r ≤ (proc temps c).1.length := by omega
      rw [proc_group, preorderMarkedList_group]
      simp only [List.map_append]
      rw [ihc hc, ihr hr]
  | case3 n temps c r ih =>
      rw [countMarkedList_super] at h
      have hr : countMarkedList r ≤ temps.length := by
        simp only [List.length_cons] at h
        omega
      rw [proc_super, preorderMarkedList_super]
      simp only [List.map_cons]
      rw [ih hr]
  | case4 temps t r h1 h2 ih =>
      obtain ⟨a, rfl⟩ : ∃ a, t = Tok.atom a := by
        cases t with
        | atom a => exact ⟨a, rfl⟩
        | group q c => exact absurd rfl (fun hg => h1 q c hg)
      by_cases ha : a = "super"
      · subst ha
        rcases braceHead_cases r with ⟨c2, r2, rfl⟩ | hnb
        · cases temps with
          | nil =>
              rw [countMarkedList_super] at h
              simp at h
          | cons n temps2 =>
              exact (h2 n temps2 c2 r2 rfl rfl rfl).elim
        · rw [countMarkedList_super_no_brace _ hnb] at h
          rw [preorderMarkedList_super_no_brace _ hnb]
          cases temps with
          | nil => rw [proc_super_no_temps]; exact ih h
          | cons n temps2 => rw [proc_super_no_brace _ _ hnb]; exact ih h
      · rw [countMarkedList_atom_ne _ ha] at h
        rw [preorderMarkedList_atom_ne _ ha, proc_atom_ne _ _ ha]
        exact ih h

theorem proc_names_subset (temps : List String) (ts : List Tok) :
    ∀ nm, nm ∈ (proc temps ts).2.1.map InitEntry.name → nm ∈ temps := by
  intro nm hm
  rw [proc_names] at hm
  exact List.take_subset _ _ hm

/-- Occurrence counting for the rewritten sequence: if an atom `nm` does not
occur in the input, then it occurs in the rewritten output exactly once when
`nm` is one of the generated names, and not at all otherwise. -/
theorem proc_countName (temps : List String) (ts : List Tok) :
    ∀ nm, temps.Nodup → countNameList nm ts = 0 →
    countNameList nm (proc temps ts).2.2 =
      if nm ∈ (proc temps ts).2.1.map InitEntry.name then 1 else 0 := by
  induction temps, ts using proc.induct with
  | case1 temps =>
      intro nm hnd h0
      rw [proc_nil]
      simp [countNameList]
  | case2 temps q c r p1 ihc ihr =>
      intro nm hnd h0
      rw [show p1 = proc temps c from rfl] at ihr
      rw [countNameList_cons] at h0
      simp only [Tok.countName] at h0
      have hc0 : countNameList nm c = 0 := by omega
      have hr0 : countNameList nm r = 0 := by omega
      have hnd2 : (proc temps c).1.Nodup := by
        rw [proc_leftover]
        exact List.Nodup.sublist (List.drop_suffix _ _).sublist hnd
      have e1 := ihc nm hnd hc0
      have e2 := ihr nm hnd2 hr0
      have hdisj : ¬(nm ∈ (proc temps c).2.1.map InitEntry.name ∧
          nm ∈ (proc (proc temps c).1 r).2.1.map InitEntry.name) := by
        rintro ⟨hm1, hm2⟩
        have h1 : nm ∈ temps.take (proc temps c).2.1.length := by
          rw [proc_names] at hm1; exact hm1
        have h2 : nm ∈ temps.drop (proc temps c).2.1.length := by
          have := proc_names_subset (proc temps c).1 r nm hm2
          rw [proc_leftover] at this
          exact this
        exact absurd h1 (by
          have := List.disjoint_take_drop (l := temps) hnd
              (le_refl (proc temps c).2.1.length)
          exact fun hmem => this hmem h2)
      rw [proc_group, countNameList_cons]
      simp only [Tok.countName, List.map_append, List.mem_append]
      rw [e1, e2]
      by_cases b1 : nm ∈ (proc temps c).2.1.map InitEntry.name <;>
        by_cases b2 : nm ∈ (proc (proc temps c).1 r).2.1.map InitEntry.name
      · exact (hdisj ⟨b1, b2⟩).elim
      · simp [b1, b2]
      · simp [b1, b2]
      · simp [b1, b2]
  | case3 n temps c r ih =>
      intro nm hnd h0
      rw [countNameList_cons, countNameList_cons] at h0
      simp only [Tok.countName] at h0
      have hr0 : countNameList nm r = 0 := by omega
      rw [List.nodup_cons] at hnd
      obtain ⟨hn_notin, hnd2⟩ := hnd
      have e := ih nm hnd2 hr0
      rw [proc_super, countNameList_cons]
      simp only [Tok.countName, List.map_cons, List.mem_cons]
      rw [e]
      by_cases hnm : n = nm
      · subst hnm
        have : n ∉ (proc temps r).2.1.map InitEntry.name := by
          intro hm
          exact hn_notin (proc_names_subset temps r n hm)
        simp [this]
      · have hme : ¬nm = n := fun h => hnm h.symm
        by_cases b2 : nm ∈ (proc temps r).2.1.map InitEntry.name <;>
          simp [hme, hnm, b2]
  | case4 temps t r h1 h2 ih =>
      intro nm hnd h0
      obtain ⟨a, rfl⟩ : ∃ a, t = Tok.atom a := by
        cases t with
        | atom a => exact ⟨a, rfl⟩
        | group q c => exact absurd rfl (fun hg => h1 q c hg)
      rw [countNameList_cons] at h0
      simp only [Tok.countName] at h0
      have ha_ne : (a = nm) = False := by
        by_cases hh : a = nm <;> simp_all
      have hr0 : countNameList nm r = 0 := by omega
      have e := ih nm hnd hr0
      by_cases ha : a = "super"
      · subst ha
        rcases braceHead_cases r with ⟨c2, r2, rfl⟩ | hnb
        · cases temps with
          | nil =>
              rw [proc_super_no_temps, countNameList_cons]
              simp only [Tok.countName]
              rw [e]
              simp [ha_ne]
          | cons n temps2 =>
              exact (h2 n temps2 c2 r2 rfl rfl rfl).elim
        · cases temps with
          | nil =>
              rw [proc_super_no_temps, countNameList_cons]
              simp only [Tok.countName]
              rw [e]
              simp [ha_ne]
          | cons n temps2 =>
              rw [proc_super_no_brace _ _ hnb, countNameList_cons]
              simp only [Tok.countName]
              rw [e]
              simp [ha_ne]
      · rw [proc_atom_ne _ _ ha, countNameList_cons]
        simp only [Tok.countName]
        rw [e]
        simp [ha_ne]

/-- Shape correspondence between an input sequence and its rewritten form,
stated from the spec: a marked expression becomes a single atom (the
generated name); any other atom is kept verbatim; any other bracketed group
keeps exactly its bracket kind and relates its contents elementwise in
order. -/
inductive RewriteShape : List Tok → List Tok → Prop where
  | nil : RewriteShape [] []
  | marked (nm : String) (c : List Tok) {r r2 : List Tok} (h : RewriteShape r r2) :
      RewriteShape (.atom "super" :: .group .brace c :: r) (.atom nm :: r2)
  | atom (a : String) {r r2 : List Tok} (h : RewriteShape r r2) :
      RewriteShape (.atom a :: r) (.atom a :: r2)
  | group (q : Paren) {c c2 r r2 : List Tok} (hc : RewriteShape c c2) (hr : RewriteShape r r2) :
      RewriteShape (.group q c :: r) (.group q c2 :: r2)

/-- The scan relates every input to its output in shape: bracket kinds and
relative order of non-marked structure are preserved. -/
theorem proc_shape (temps : List String) (ts : List Tok) :
    RewriteShape ts (proc temps ts).2.2 := by
  induction temps, ts using proc.induct with
  | case1 temps =>
      rw [proc_nil]
      exact RewriteShape.nil
  | case2 temps q c r p1 ihc ihr =>
      rw [show p1 = proc temps c from rfl] at ihr
      rw [proc_group]
      exact RewriteShape.group q ihc ihr
  | case3 n temps c r ih =>
      rw [proc_super]
      exact RewriteShape.marked n c ih
  | case4 temps t r h1 h2 ih =>
      obtain ⟨a, rfl⟩ : ∃ a, t = Tok.atom a := by
        cases t with
        | atom a => exact ⟨a, rfl⟩
        | group q c => exact absurd rfl (fun hg => h1 q c hg)
      by_cases ha : a = "super"
      · subst ha
        rcases braceHead_cases r with ⟨c2, r2, rfl⟩ | hnb
        · cases temps with
          | nil =>
              rw [proc_super_no_temps]
              exact RewriteShape.atom "super" ih
          | cons n temps2 =>
              exact (h2 n temps2 c2 r2 rfl rfl rfl).elim
        · cases temps with
          | nil =>
              rw [proc_super_no_temps]
              exact RewriteShape.atom "super" ih
          | cons n temps2 =>
              rw [proc_super_no_brace _ _ hnb]
              exact RewriteShape.atom "super" ih
      · rw [proc_atom_ne _ _ ha]
        exact RewriteShape.atom a ih

theorem step_stuck_eq (temps : List String) (fb : List Tok) (f2 : Frame)
    (stk : List Frame) (init : List InitEntry) (body : List Tok) :
    step ⟨temps, ⟨none, fb, []⟩ :: f2 :: stk, init, body⟩ = .stuck := by
  cases temps <;> cases f2 <;> rfl

/-- Total size of the unprocessed input across all work frames. -/
def restSize (stk : List Frame) : Nat :=
  (stk.map (fun f => Tok.sizeList f.rest)).sum

/-- Termination measure of the machine: every applied rule strictly
decreases it. -/
def stMeasure (s : MState) : Nat :=
  2 * restSize s.stack + s.stack.length

theorem step_decreases : ∀ (s s2 : MState), step s = .next s2 → stMeasure s2 < stMeasure s := by
  intro s s2 h
  obtain ⟨temps, stack, init, body⟩ := s
  cases stack with
  | nil =>
      rw [step_done] at h
      cases h
  | cons f stk =>
      obtain ⟨p, fb, rest⟩ := f
      cases rest with
      | cons t r =>
          cases t with
          | group q c =>
              rw [step_push] at h
              cases h
              simp [stMeasure, restSize, Tok.sizeList, Tok.size]
              all_goals omega
          | atom a =>
              by_cases ha : a = "super"
              · subst ha
                rcases braceHead_cases r with ⟨c2, r2, rfl⟩ | hnb
                · cases temps with
                  | nil =>
                      rw [step_misc_super_no_temps] at h
                      cases h
                      simp [stMeasure, restSize, Tok.sizeList, Tok.size]
                      all_goals omega
                  | cons n temps2 =>
                      rw [step_super] at h
                      cases h
                      simp [stMeasure, restSize, Tok.sizeList, Tok.size]
                      all_goals omega
                · rw [step_misc_super_no_brace _ _ _ _ _ _ _ hnb] at h
                  cases h
                  simp [stMeasure, restSize, Tok.sizeList, Tok.size]
                  all_goals omega
              · rw [step_misc_ne _ _ _ _ ha] at h
                cases h
                simp [stMeasure, restSize, Tok.sizeList, Tok.size]
                all_goals omega
      | nil =>
          cases stk with
          | nil =>
              cases p with
              | some q =>
                  rw [step_bottom] at h
                  cases h
                  simp [stMeasure, restSize, Tok.sizeList]
              | none =>
                  rw [step_bottom_none] at h
                  cases h
                  simp [stMeasure, restSize, Tok.sizeList]
          | cons f2 stk2 =>
              cases p with
              | some q =>
                  rw [step_merge] at h
                  cases h
                  simp [stMeasure, restSize, Tok.sizeList]
              | none =>
                  rw [step_stuck_eq] at h
                  cases h

/-- The distinguishing suffixes of the pool names, used to obtain
distinctness of the pool without comparing the long names pairwise. -/
def soupaTempSuffixes : List String := [
  "a", "b", "c", "d", "e", "f", "g", "h", "i", "j", "k", "l", "m",
  "n", "o", "p", "q", "r", "s", "t", "u", "v", "w", "x", "y", "z",
  "aa", "ab", "ac", "ad", "ae", "af", "ag", "ah", "ai", "aj", "ak", "al", "am",
  "an", "ao", "ap", "aq", "ar", "as", "at", "au", "av", "aw", "ax", "ay", "az",
  "ba", "bb", "bc", "bd", "be", "bf", "bg", "bh", "bi", "bj", "bk", "bl", "bm",
  "bn", "bo", "bp", "bq", "br", "bs", "bt", "bu", "bv", "bw", "bx", "by", "bz",
  "ca", "cb", "cc", "cd", "ce", "cf", "cg", "ch", "ci", "cj", "ck", "cl", "cm",
  "cn", "co", "cp", "cq", "cr", "cs", "ct", "cu", "cv", "cw", "cx", "cy", "cz",
  "da", "db", "dc", "dd", "de", "df", "dg", "dh", "di", "dj", "dk", "dl", "dm",
  "dn", "do", "dp", "dq", "dr", "ds", "dt", "du", "dv", "dw", "dx", "dy", "dz",
  "ea", "eb", "ec", "ed", "ee", "ef", "eg", "eh", "ei", "ej", "ek", "el", "em",
  "en", "eo", "ep", "eq", "er", "es", "et", "eu", "ev", "ew", "ex", "ey", "ez",
  "fa", "fb", "fc", "fd", "fe", "ff", "fg", "fh", "fi", "fj", "fk", "fl", "fm",
  "fn", "fo", "fp", "fq", "fr", "fs", "ft", "fu", "fv", "fw", "fx", "fy", "fz",
  "ga", "gb", "gc", "gd", "ge", "gf", "gg", "gh", "gi", "gj", "gk", "gl", "gm",
  "gn", "go", "gp", "gq", "gr", "gs", "gt", "gu", "gv", "gw", "gx", "gy", "gz",
  "ha", "hb", "hc", "hd", "he", "hf", "hg", "hh", "hi", "hj", "hk", "hl", "hm",
  "hn", "ho", "hp", "hq", "hr", "hs", "ht", "hu", "hv", "hw", "hx", "hy", "hz",
  "ia", "ib", "ic", "id", "ie", "if", "ig", "ih", "ii", "ij", "ik", "il", "im",
  "in", "io", "ip", "iq", "ir", "is", "it", "iu", "iv", "iw", "ix", "iy", "iz"]

set_option maxRecDepth 10000 in
theorem soupaTemps_length : soupaTemps.length = 260 := by rfl

set_option maxRecDepth 10000 in
theorem soupaTemps_eq_map :
    soupaTemps = soupaTempSuffixes.map (fun s => "__soupa_temp__" ++ s) := by rfl

set_option maxRecDepth 10000 in
theorem soupaTempSuffixes_nodup : soupaTempSuffixes.Nodup := by decide

theorem string_append_left_injective (a : String) :
    Function.Injective (fun s => a ++ s) := by
  intro x y h
  simp only at h
  have hd : (a ++ x).data = (a ++ y).data := congrArg String.data h
  simp only [String.data_append] at hd
  exact String.ext (List.append_cancel_left hd)

theorem soupaTemps_nodup : soupaTemps.Nodup := by
  rw [soupaTemps_eq_map]
  exact List.Nodup.map (string_append_left_injective _) soupaTempSuffixes_nodup

/-- C1: for every input token sequence containing no Marked Expression (no
`super` atom immediately followed by a `{}` group, at any nesting depth),
the rewrite produces an Init List of length 0 and an Output Body identical
to the input, the input's own bracketing being kept as it was. -/
theorem soupa_markerless_identity (input : List Tok)
    (h : hasMarkedList input = false) :
    soupa input = some ([], input) := by
  rw [soupa_eq_proc, proc_of_no_marked _ _ h]

set_option maxRecDepth 100000 in
theorem soupa_markerless_identity_witness :
    hasMarkedList [Tok.atom "foo", Tok.group Paren.paren []] = false ∧
    soupa [Tok.atom "foo", Tok.group Paren.paren []] =
      some ([], [Tok.atom "foo", Tok.group Paren.paren []]) :=
  ⟨rfl, soupa_markerless_identity _ rfl⟩

set_option maxRecDepth 10000 in
/-- C2: the contents of a discovered Marked Expression are copied verbatim
into the generated initialization statement and are not recursively
scanned: for any contents `c` whatsoever (in particular contents that
themselves contain a `super { .. }` pattern), exactly one init entry is
generated and it holds `c` unchanged. -/
theorem soupa_marked_contents_verbatim (c rest : List Tok)
    (h : hasMarkedList rest = false) :
    soupa (.atom "super" :: .group .brace c :: rest) =
      some ([⟨"__soupa_temp__a", c⟩], .atom "__soupa_temp__a" :: rest) := by
  rw [soupa_eq_proc]
  rw [show soupaTemps = "__soupa_temp__a" :: soupaTemps.tail from rfl]
  rw [proc_super, proc_of_no_marked _ _ h]

set_option maxRecDepth 100000 in
theorem soupa_marked_contents_verbatim_witness :
    hasMarkedList ([] : List Tok) = false ∧
    soupa [Tok.atom "super",
           Tok.group .brace [Tok.atom "super", Tok.group .brace [Tok.atom "x"]]] =
      some ([⟨"__soupa_temp__a", [Tok.atom "super", Tok.group .brace [Tok.atom "x"]]⟩],
            [Tok.atom "__soupa_temp__a"]) :=
  ⟨rfl, soupa_marked_contents_verbatim
    [Tok.atom "super", Tok.group .brace [Tok.atom "x"]] [] rfl⟩

set_option maxRecDepth 10000 in
/-- C3 counterexample: the Fresh-Name Pool of the reference implementation
has exactly 260 entries (26 letters times 10 rows, lib.rs lines 526-535),
which is not approximately 700: it does not even reach half of 700. -/
theorem soupa_pool_size_counterexample :
    soupaTemps.length = 260 ∧ ¬350 ≤ soupaTemps.length := by
  refine ⟨by rfl, ?_⟩
  rw [show soupaTemps.length = 260 from rfl]
  omega

/-- C3 (amended): the Fresh-Name Pool offers 260 distinct identifier
entries, pairwise distinct and consumed without repetition, one per hoisted
Marked Expression, in a fixed deterministic order starting from the same
first element on every invocation: on any run the generated names are
exactly an initial segment of the pool, in pool order. -/
theorem soupa_pool_spec :
    soupaTemps.length = 260 ∧ soupaTemps.Nodup ∧
    ∀ input init body, soupa input = some (init, body) →
      init.map InitEntry.name = soupaTemps.take init.length := by
  refine ⟨soupaTemps_length, soupaTemps_nodup, ?_⟩
  intro input init body h
  have h2 := soupa_eq_proc input
  rw [h] at h2
  simp only [Option.some.injEq, Prod.mk.injEq] at h2
  obtain ⟨h3, h4⟩ := h2
  subst h3
  exact proc_names _ _

set_option maxRecDepth 100000 in
theorem soupa_pool_spec_witness :
    List.map InitEntry.name [⟨"__soupa_temp__a", [Tok.atom "x"]⟩] =
      soupaTemps.take (List.length [(⟨"__soupa_temp__a", [Tok.atom "x"]⟩ : InitEntry)]) :=
  soupa_pool_spec.2.2 [Tok.atom "super", Tok.group .brace [Tok.atom "x"]]
    [⟨"__soupa_temp__a", [Tok.atom "x"]⟩] [Tok.atom "__soupa_temp__a"] rfl

/-- C4: for every input whose number of discovered Marked Expressions does
not exceed the pool, and whose atoms are disjoint from the pool names (the
pool names are guaranteed-unused per the spec), the rewrite succeeds, the
number of Init List entries equals the number of Marked Expressions
discovered at any nesting depth, and each generated name appears exactly
once in the Output Body. -/
theorem soupa_exactly_once (input : List Tok)
    (hcount : countMarkedList input ≤ soupaTemps.length)
    (hfresh : ∀ nm ∈ soupaTemps, countNameList nm input = 0) :
    ∃ init body, soupa input = some (init, body) ∧
      init.length = countMarkedList input ∧
      ∀ e ∈ init, countNameList e.name body = 1 := by
  refine ⟨(proc soupaTemps input).2.1, (proc soupaTemps input).2.2,
    soupa_eq_proc input, proc_count _ _ hcount, ?_⟩
  intro e he
  have hmem : e.name ∈ (proc soupaTemps input).2.1.map InitEntry.name :=
    List.mem_map_of_mem _ he
  have hin : e.name ∈ soupaTemps := proc_names_subset _ _ _ hmem
  rw [proc_countName soupaTemps input e.name soupaTemps_nodup (hfresh _ hin), if_pos hmem]

set_option maxRecDepth 100000 in
theorem soupa_exactly_once_witness :
    ∃ init body,
      soupa [Tok.group .brace [Tok.atom "super", Tok.group .brace [Tok.atom "x"]],
             Tok.atom "super", Tok.group .brace [Tok.atom "y"]] = some (init, body) ∧
      init.length = countMarkedList
        [Tok.group .brace [Tok.atom "super", Tok.group .brace [Tok.atom "x"]],
         Tok.atom "super", Tok.group .brace [Tok.atom "y"]] ∧
      ∀ e ∈ init, countNameList e.name body = 1 :=
  soupa_exactly_once _ (by decide) (by decide)

/-- C5: the Init List is in discovery order, the pre-order depth-first
left-to-right traversal of the nested input structure: the entry contents
are exactly `preorderMarkedList input`, and the fresh names are assigned in
pool order along that same traversal, so a Marked Expression nested inside
an earlier sibling group receives its name and entry before any later one. -/
theorem soupa_discovery_preorder (input : List Tok) (init : List InitEntry) (body : List Tok)
    (hcount : countMarkedList input ≤ soupaTemps.length)
    (hrun : soupa input = some (init, body)) :
    init.map InitEntry.contents = preorderMarkedList input ∧
    init.map InitEntry.name = soupaTemps.take init.length := by
  have h2 := soupa_eq_proc input
  rw [hrun] at h2
  simp only [Option.some.injEq, Prod.mk.injEq] at h2
  obtain ⟨h3, h4⟩ := h2
  subst h3
  exact ⟨proc_contents _ _ hcount, proc_names _ _⟩

set_option maxRecDepth 100000 in
theorem soupa_discovery_preorder_witness :
    List.map InitEntry.contents
        [⟨"__soupa_temp__a", [Tok.atom "x"]⟩, ⟨"__soupa_temp__b", [Tok.atom "y"]⟩] =
      preorderMarkedList
        [Tok.group .brace [Tok.atom "super", Tok.group .brace [Tok.atom "x"]],
         Tok.atom "super", Tok.group .brace [Tok.atom "y"]] ∧
    List.map InitEntry.name
        [⟨"__soupa_temp__a", [Tok.atom "x"]⟩, ⟨"__soupa_temp__b", [Tok.atom "y"]⟩] =
      soupaTemps.take (List.length
        [(⟨"__soupa_temp__a", [Tok.atom "x"]⟩ : InitEntry), ⟨"__soupa_temp__b", [Tok.atom "y"]⟩]) :=
  soupa_discovery_preorder
    [Tok.group .brace [Tok.atom "super", Tok.group .brace [Tok.atom "x"]],
     Tok.atom "super", Tok.group .brace [Tok.atom "y"]]
    [⟨"__soupa_temp__a", [Tok.atom "x"]⟩, ⟨"__soupa_temp__b", [Tok.atom "y"]⟩]
    [Tok.group .brace [Tok.atom "__soupa_temp__a"], Tok.atom "__soupa_temp__b"]
    (by decide) rfl

/-- C6: the rewrite terminates on every input: each applied rule strictly
decreases the measure `stMeasure` (twice the unprocessed size plus the
stack depth), and from the entry state the machine reaches the terminal
empty-stack output within fuel bounded by the input size. -/
theorem soupa_terminates :
    (∀ s s2, step s = .next s2 → stMeasure s2 < stMeasure s) ∧
    (∀ input, ∃ init body,
      runFuel (2 * Tok.sizeList input + 2) (initState input) = some (init, body)) :=
  ⟨step_decreases, fun input =>
    ⟨(proc soupaTemps input).2.1, (proc soupaTemps input).2.2, soupa_eq_proc input⟩⟩

theorem soupa_terminates_witness :
    stMeasure ⟨[], [⟨none, [Tok.atom "x"], []⟩], [], []⟩ <
      stMeasure ⟨[], [⟨none, [], [Tok.atom "x"]⟩], [], []⟩ ∧
    ∃ init body, runFuel (2 * Tok.sizeList [] + 2) (initState []) = some (init, body) :=
  ⟨soupa_terminates.1 _ _ rfl, soupa_terminates.2 []⟩

/-- C7: rewriting preserves the bracket kind of every group that is not
itself a Marked Expression, and the relative order of the tokens and
sub-groups inside it: input and Output Body are related by `RewriteShape`,
which forces a non-marked group to keep its exact kind and its contents in
order, and only replaces marked expressions by single atoms. -/
theorem soupa_shape_preserved (input : List Tok) (init : List InitEntry) (body : List Tok)
    (hrun : soupa input = some (init, body)) :
    RewriteShape input body := by
  have h2 := soupa_eq_proc input
  rw [hrun] at h2
  simp only [Option.some.injEq, Prod.mk.injEq] at h2
  obtain ⟨h3, h4⟩ := h2
  rw [h4]
  exact proc_shape _ _

set_option maxRecDepth 100000 in
theorem soupa_shape_preserved_witness :
    RewriteShape
      [Tok.group .bracket [Tok.atom "x"], Tok.group .paren [Tok.atom "super"]]
      [Tok.group .bracket [Tok.atom "x"], Tok.group .paren [Tok.atom "super"]] :=
  soupa_shape_preserved _ [] _ rfl

/-- C8: a `super` atom not immediately followed by a `{}` group receives no
special handling and raises no error: the rewrite of `super :: rest` is
exactly the rewrite of `rest` with the `super` atom passed through as an
ordinary token. -/
theorem soupa_malformed_marker (rest : List Tok)
    (h : startsWithBraceGroup rest = false) :
    soupa (.atom "super" :: rest) =
      (soupa rest).map (fun out => (out.1, .atom "super" :: out.2)) := by
  have hnb : ∀ c r2, rest ≠ Tok.group .brace c :: r2 := by
    intro c r2 hr
    subst hr
    simp [startsWithBraceGroup] at h
  rw [soupa_eq_proc, soupa_eq_proc, proc_super_no_brace _ _ hnb]
  rfl

set_option maxRecDepth 100000 in
theorem soupa_malformed_marker_witness :
    startsWithBraceGroup [Tok.group .paren [Tok.atom "x"]] = false ∧
    soupa [Tok.atom "super", Tok.group .paren [Tok.atom "x"]] =
      (soupa [Tok.group .paren [Tok.atom "x"]]).map
        (fun out => (out.1, Tok.atom "super" :: out.2)) :=
  ⟨rfl, soupa_malformed_marker [Tok.group .paren [Tok.atom "x"]] rfl⟩

/-- C9: when the Fresh-Name Pool is exhausted, a `super { .. }` marker at
the front of the remaining input causes neither failure nor name reuse: the
hoisting rule no longer applies, the single applied rule emits the `super`
atom verbatim as an ordinary token leaving the `{}` group to be traversed
as an ordinary group, and the whole remaining input is emitted verbatim
with no new Init List entry. -/
theorem soupa_pool_exhausted (c r : List Tok) :
    (∀ p fb stk init body,
      step ⟨[], ⟨p, fb, .atom "super" :: .group .brace c :: r⟩ :: stk, init, body⟩ =
        .next ⟨[], ⟨p, fb ++ [.atom "super"], .group .brace c :: r⟩ :: stk, init, body⟩) ∧
    (∀ init out,
      runFuel (2 * Tok.sizeList (.atom "super" :: .group .brace c :: r) + 2)
          ⟨[], [⟨none, [], .atom "super" :: .group .brace c :: r⟩], init, out⟩ =
        some (init, out ++ (.atom "super" :: .group .brace c :: r))) := by
  constructor
  · intro p fb stk init body
    exact step_misc_super_no_temps p fb _ stk init body
  · intro init out
    have hmid : runFuel 1
        ⟨[], [], init, out ++ (.atom "super" :: .group .brace c :: r)⟩ =
          some (init, out ++ (.atom "super" :: .group .brace c :: r)) :=
      runFuel_done (step_done _ _ _) 1 le_rfl
    have hend : runFuel 2
        ⟨[], [⟨none, .atom "super" :: .group .brace c :: r, []⟩], init, out⟩ =
          some (init, out ++ (.atom "super" :: .group .brace c :: r)) :=
      runFuel_step (step_bottom_none _ _ _ _) hmid 2 (by omega)
    have hsim := procSim [] (.atom "super" :: .group .brace c :: r) none [] [] init out 2
        (init, out ++ (.atom "super" :: .group .brace c :: r))
        (by rw [proc_empty_temps]; simpa using hend)
    simpa using hsim

/-- C10: invoking the rewriter on the empty token sequence succeeds with an
empty Init List and an empty Output Body, and the returned expansion is a
single empty brace-delimited block. -/
theorem soupa_empty_input :
    soupa [] = some ([], []) ∧ soupaExpand [] = some (.group .brace []) := by
  constructor
  · rw [soupa_eq_proc, proc_nil]
  · simp [soupaExpand, soupa_eq_proc, proc_nil, renderInit]
